import Mathlib

/-!
Verification of the erasure-coded container core of `sage` (src/main.rs):
payload sharding (`shards_from_data`), Reed–Solomon parity generation,
container serialization (`protect`, steps 4–5), tolerant container parsing,
reconstruction and assembly (`recover`, steps 1–2).

The finite-field Reed–Solomon codec itself (`reed_solomon_erasure`) is an
external library; it is modelled from the spec's GaloisCodec contract
(see `rsEncode` / `rsReconstruct`).  Everything else is translated
directly from src/main.rs.
-/

/-- `DATA_SHARDS` from src/main.rs. -/
def DATA_SHARDS : Nat := 10

/-- `PARITY_SHARDS` from src/main.rs. -/
def PARITY_SHARDS : Nat := 4

/-- `TOTAL_SHARDS = DATA_SHARDS + PARITY_SHARDS` from src/main.rs. -/
def TOTAL_SHARDS : Nat := DATA_SHARDS + PARITY_SHARDS

/-- Rust's `usize::div_ceil`: for the divisors used by the program
(`DATA_SHARDS`, `TOTAL_SHARDS`, both positive) it equals `(a + b - 1) / b`. -/
def divCeil (a b : Nat) : Nat := (a + b - 1) / b

/-- Fuel-driven worker for `rustChunks`; the fuel bounds the number of
chunks produced and is irrelevant as soon as it is at least the length
of the list (see `rustChunksGo_fuel`). -/
def rustChunksGo (n : Nat) : Nat → List α → List (List α)
  | 0, _ => []
  | _, [] => []
  | fuel + 1, a :: as => (a :: as.take (n - 1)) :: rustChunksGo n fuel (as.drop (n - 1))

/-- Rust's `slice::chunks(n)` collected into a list: consecutive chunks of
`n` elements, the last chunk possibly shorter; no chunk on an empty slice.
Rust panics on `n = 0`; the call sites of this model establish `n > 0`
(the one call that can reach `n = 0`, in `recover`, models the panic
explicitly in `readContainer`). -/
def rustChunks (n : Nat) (l : List α) : List (List α) :=
  rustChunksGo n l.length l

/-- Rust's `Vec::resize(n, fill)`: truncate to `n` or extend with `fill`
up to length `n`. -/
def listResize (l : List Nat) (n : Nat) (fill : Nat) : List Nat :=
  (l ++ List.replicate (n - l.length) fill).take n

/-- `shards_from_data` from src/main.rs: split `data` into `numShards`
chunks of `shardLen = data.len().div_ceil(numShards)` bytes, append empty
shards until there are `numShards` of them, and resize every shard to
exactly `shardLen` (zero padding).  The `shardLen = 0` case returns
`numShards` empty shards. -/
def shards_from_data (data : List Nat) (numShards : Nat) : List (List Nat) :=
  let shardLen := divCeil data.length numShards
  if shardLen = 0 then List.replicate numShards []
  else
    let cs := rustChunks shardLen data
    let cs := cs ++ List.replicate (numShards - cs.length) []
    cs.map fun c => listResize c shardLen 0

/-- `u64::to_le_bytes` applied to the payload length in `protect`:
eight little-endian base-256 digits. -/
def writeLE64 (n : Nat) : List Nat :=
  [n % 256, n / 256 % 256, n / 65536 % 256, n / 16777216 % 256,
   n / 4294967296 % 256, n / 1099511627776 % 256,
   n / 281474976710656 % 256, n / 72057594037927936 % 256]

/-- `u64::from_le_bytes` applied to the first eight bytes of the container
in `recover`. -/
def readLE64 (b : List Nat) : Nat :=
  b.getD 0 0 + 256 * (b.getD 1 0 + 256 * (b.getD 2 0 + 256 * (b.getD 3 0 +
    256 * (b.getD 4 0 + 256 * (b.getD 5 0 + 256 * (b.getD 6 0 +
    256 * b.getD 7 0))))))

/-- The field of symbols used by the spec-modelled Galois codec.  The spec
only constrains the codec through its MDS contract and `totalShards ≤ 255`;
the model instantiates it over the prime field with 257 elements, in which
the 14 shard indices are distinct nodes. -/
abbrev F257 : Type := ZMod 257

instance fact_prime_257 : Fact (Nat.Prime 257) := ⟨by norm_num⟩

/-- Computable field inverse on `F257` (equal to `Inv.inv`, see
`finv_eq_inv`): Fermat inverse `x ^ 255`. -/
def finv (x : F257) : F257 := x ^ 255

/-- Evaluation at `k` of the Lagrange interpolation polynomial through the
nodes `s` with values `r` (computably, via the Lagrange basis products). -/
def interpEval (s : Finset F257) (r : F257 → F257) (k : F257) : F257 :=
  ∑ x ∈ s, r x * ∏ y ∈ s.erase x, finv (x - y) * (k - y)

/-- The ten data-shard nodes `0, …, 9` of the codec. -/
def tenNodes : Finset F257 := (Finset.range DATA_SHARDS).image (Nat.cast)

/-- Byte `t` of shard `k` in a shard list (0 when out of range). -/
def byteAt (shards : List (List Nat)) (k t : Nat) : Nat :=
  (shards.getD k []).getD t 0

/-- The values of column `t` of the data shards, as a function on field
elements (only its values at the data nodes matter). -/
def colFun (shards : List (List Nat)) (t : Nat) : F257 → F257 :=
  fun x => (byteAt shards x.val t : F257)

/-- Modelled from the spec: `GaloisCodec.encode` / `generateParity`
(the `reed_solomon_erasure` library used by `protect`, external to this
repository).  Per the spec it "produces P parity shards of the same length
as the data shards such that any D of the resulting totalShards shards are
sufficient to reconstruct all data shards (maximum-distance-separable
property)".  The model realises this contract with a systematic
Reed–Solomon code: column `t` of parity shard `j` is the evaluation at
node `10 + j` of the degree-< 10 polynomial interpolating column `t` of
the ten data shards at nodes `0, …, 9`. -/
def rsEncode (data : List (List Nat)) : List (List Nat) :=
  let shardLen := (data.getD 0 []).length
  (List.range PARITY_SHARDS).map fun j =>
    (List.range shardLen).map fun t =>
      (interpEval tenNodes (colFun data t) ((DATA_SHARDS + j : Nat) : F257)).val

/-- The 14 shards produced by `protect` for a payload: the data shards
from `shards_from_data` followed by the parity shards. -/
def fullShards (payload : List Nat) : List (List Nat) :=
  let data := shards_from_data payload DATA_SHARDS
  data ++ rsEncode data

/-- The container bytes written by `protect` (steps 4–5 of src/main.rs):
the payload length as eight little-endian bytes, then every shard's bytes
in index order, written sequentially with no separators. -/
def protectContainer (payload : List Nat) : List Nat :=
  (fullShards payload).foldl (fun acc sh => acc ++ sh) (writeLE64 payload.length)

/-- Outcomes of the container-reading part of `recover` that do not produce
a slot list: a failing 8-byte header read, the explicit corrupt-container
error, and the Rust panic of `chunks(0)` (reached when the remaining byte
count is zero while the stored length is zero). -/
inductive ContainerError where
  | headerTooShort
  | corrupt
  | chunkPanic
  deriving DecidableEq, Repr

/-- The container-reading part of `recover` (src/main.rs lines 208–235):
read the first eight bytes as the original length, infer
`shardLen = rest.len().div_ceil(TOTAL_SHARDS)`, fail if `shardLen == 0`
while the original length is positive, chunk the remaining bytes into
`Present` slots, pad with `Absent` (`None`) slots up to `TOTAL_SHARDS`,
and truncate to `TOTAL_SHARDS`.  `chunks(0)` panics in Rust, modelled by
`ContainerError.chunkPanic`. -/
def readContainer (bytes : List Nat) :
    Except ContainerError (Nat × List (Option (List Nat))) :=
  if bytes.length < 8 then .error .headerTooShort
  else
    let originalLen := readLE64 bytes
    let rest := bytes.drop 8
    let shardLen := divCeil rest.length TOTAL_SHARDS
    if shardLen = 0 ∧ 0 < originalLen then .error .corrupt
    else if shardLen = 0 then .error .chunkPanic
    else
      let slots := (rustChunks shardLen rest).map some
      .ok (originalLen, (slots ++ List.replicate (TOTAL_SHARDS - slots.length) none).take TOTAL_SHARDS)

/-- The values of column `t` of a slot list, as a function on field
elements (only its values at the present nodes matter). -/
def slotCol (slots : List (Option (List Nat))) (t : Nat) : F257 → F257 :=
  fun x => (((slots.getD x.val none).getD []).getD t 0 : F257)

/-- Failure of the reconstruction step. -/
inductive RSError where
  | reconstructionError
  deriving DecidableEq, Repr

/-- Modelled from the spec: `GaloisCodec.reconstruct` (the
`reed_solomon_erasure` library used by `recover`, external to this
repository).  Per the spec it "counts Absent slots; fails with
ReconstructionError if that count exceeds P"; on success "every Absent
slot is filled with recovered bytes identical to what the original
ShardEncoder/GaloisCodec.encode would have produced" and present slots
are left untouched.  The model fills each absent position `k` with the
evaluation at node `k` of the polynomial interpolating the present
columns (the unique degree-< 10 candidate), realising the MDS contract
of `rsEncode`; the shard length is taken from the first present shard. -/
def rsReconstruct (slots : List (Option (List Nat))) :
    Except RSError (List (Option (List Nat))) :=
  if PARITY_SHARDS < slots.countP (fun sl => sl.isNone) then
    .error .reconstructionError
  else
    let shardLen := ((slots.filterMap id).getD 0 []).length
    let present : Finset F257 :=
      ((Finset.range slots.length).filter
        fun i => (slots.getD i none).isSome).image (Nat.cast)
    .ok ((List.range slots.length).map fun k =>
      match slots.getD k none with
      | some b => some b
      | none => some ((List.range shardLen).map fun t =>
          (interpEval present (slotCol slots t) ((k : Nat) : F257)).val))

/-- Mark the positions of `A` as `Absent` in a shard list (the erasure
scenarios of the spec's §8 properties). -/
def eraseSlots (shards : List (List Nat)) (A : Finset Nat) :
    List (Option (List Nat)) :=
  (List.range shards.length).map fun k =>
    if k ∈ A then none else some (shards.getD k [])

/-- The assembly step of `recover` (src/main.rs lines 247–253): iterate
over the first `DATA_SHARDS` slots, append the bytes of each `Some` slot
(silently skipping `None` slots), then truncate to the original length. -/
def assembleSlots (slots : List (Option (List Nat))) (originalLen : Nat) :
    List Nat :=
  ((slots.take DATA_SHARDS).foldl
    (fun acc sl => match sl with | some s => acc ++ s | none => acc) []).take originalLen

/-- The chunking step as described by the spec's words for the container
reader: chunk `i` is the `shardLen`-byte piece starting at offset
`i * shardLen`, with `ceil(R / shardLen)` chunks in total. -/
def chunksSpec (n : Nat) (l : List Nat) : List (List Nat) :=
  (List.range (divCeil l.length n)).map fun i => (l.drop (i * n)).take n

/-- The slot list as described by the spec's words for the container
reader: the chunks, each a `Present` slot, padded with `Absent` slots to
exactly `TOTAL_SHARDS` entries and truncated to `TOTAL_SHARDS`. -/
def readSlotsSpec (rest : List Nat) : List (Option (List Nat)) :=
  let cs := (chunksSpec (divCeil rest.length TOTAL_SHARDS) rest).map some
  (cs ++ List.replicate (TOTAL_SHARDS - cs.length) none).take TOTAL_SHARDS

/-! ### Chunking lemmas -/

theorem rustChunksGo_eq_of_le {α : Type} (n : Nat) :
    ∀ (fuel : Nat) (l : List α), l.length ≤ fuel →
      rustChunksGo n fuel l = rustChunks n l := by
  intro fuel
  induction fuel using Nat.strong_induction_on with
  | _ fuel ih =>
    intro l hl
    cases fuel with
    | zero =>
      cases l with
      | nil => rfl
      | cons a as => simp at hl
    | succ f =>
      cases l with
      | nil => rfl
      | cons a as =>
        have hl' : as.length ≤ f := by
          simp only [List.length_cons] at hl
          omega
        have hd : (as.drop (n - 1)).length ≤ as.length := by
          simp [List.length_drop]
        show rustChunksGo n (f + 1) (a :: as) = rustChunksGo n (a :: as).length (a :: as)
        simp only [List.length_cons, rustChunksGo]
        rw [ih f (by omega) _ (le_trans hd hl'), ih as.length (by omega) _ hd]

theorem rustChunks_cons {α : Type} (n : Nat) (a : α) (as : List α) :
    rustChunks n (a :: as) =
      (a :: as.take (n - 1)) :: rustChunks n (as.drop (n - 1)) := by
  show rustChunksGo n (as.length + 1) (a :: as) = _
  simp only [rustChunksGo]
  rw [rustChunksGo_eq_of_le n as.length _ (by simp [List.length_drop])]

theorem rustChunks_eq_cons {α : Type} {n : Nat} (hn : 0 < n) {l : List α} (hl : l ≠ []) :
    rustChunks n l = l.take n :: rustChunks n (l.drop n) := by
  cases l with
  | nil => exact absurd rfl hl
  | cons a as =>
    rw [rustChunks_cons]
    obtain ⟨m, rfl⟩ : ∃ m, n = m + 1 := ⟨n - 1, by omega⟩
    simp

theorem divCeil_eq_zero_iff {a n : Nat} (hn : 0 < n) : divCeil a n = 0 ↔ a = 0 := by
  unfold divCeil
  constructor
  · intro h
    by_contra ha
    have h1 : n ≤ a + n - 1 := by omega
    have := (Nat.one_le_div_iff hn).mpr h1
    omega
  · intro h
    subst h
    rw [Nat.div_eq_of_lt (by omega)]

theorem divCeil_sub (n : Nat) (hn : 0 < n) (a : Nat) (ha : 0 < a) :
    divCeil a n = divCeil (a - n) n + 1 := by
  unfold divCeil
  by_cases hle : a ≤ n
  · have h1 : a - n = 0 := by omega
    have e1 : a + n - 1 = (a - 1) + n := by omega
    have e2 : (a - 1) / n = 0 := Nat.div_eq_of_lt (by omega)
    have e3 : (0 + n - 1) / n = 0 := Nat.div_eq_of_lt (by omega)
    rw [h1, e1, Nat.add_div_right _ hn, e2, e3]
  · have h2 : a + n - 1 = (a - n + n - 1) + n := by omega
    rw [h2, Nat.add_div_right _ hn]

theorem rustChunks_eq_chunksSpec (n : Nat) (hn : 0 < n) (l : List Nat) :
    rustChunks n l = chunksSpec n l := by
  suffices H : ∀ (len : Nat) (l : List Nat), l.length ≤ len →
      rustChunks n l = chunksSpec n l from H l.length l le_rfl
  intro len
  induction len with
  | zero =>
    intro l hl
    have hz : divCeil 0 n = 0 := by
      unfold divCeil
      exact Nat.div_eq_of_lt (by omega)
    have : l = [] := List.length_eq_zero.mp (by omega)
    subst this
    simp [rustChunks, rustChunksGo, chunksSpec, hz]
  | succ m ih =>
    intro l hl
    cases l with
    | nil =>
      have hz : divCeil 0 n = 0 := by
        unfold divCeil
        exact Nat.div_eq_of_lt (by omega)
      simp [rustChunks, rustChunksGo, chunksSpec, hz]
    | cons a as =>
      rw [rustChunks_eq_cons hn (by simp)]
      have hdc : divCeil (a :: as).length n = divCeil ((a :: as).drop n).length n + 1 := by
        rw [List.length_drop]
        exact divCeil_sub n hn _ (by simp)
      have hrec : rustChunks n ((a :: as).drop n) = chunksSpec n ((a :: as).drop n) := by
        apply ih
        simp only [List.length_drop, List.length_cons] at hl ⊢
        omega
      rw [hrec]
      unfold chunksSpec
      rw [hdc, List.range_succ_eq_map, List.map_cons, List.map_map]
      congr 1
      · simp
      · apply List.map_congr_left
        intro i _
        show (((a :: as).drop n).drop (i * n)).take n = ((a :: as).drop ((i + 1) * n)).take n
        rw [List.drop_drop]
        congr 2
        ring

theorem length_rustChunks (n : Nat) (hn : 0 < n) (l : List Nat) :
    (rustChunks n l).length = divCeil l.length n := by
  rw [rustChunks_eq_chunksSpec n hn]
  simp [chunksSpec]

theorem rustChunks_flatten {α : Type} (n : Nat) (hn : 0 < n) (l : List α) :
    (rustChunks n l).flatten = l := by
  suffices H : ∀ (len : Nat) (l : List α), l.length ≤ len →
      (rustChunks n l).flatten = l from H l.length l le_rfl
  intro len
  induction len with
  | zero =>
    intro l hl
    have : l = [] := List.length_eq_zero.mp (by omega)
    subst this
    rfl
  | succ m ih =>
    intro l hl
    cases l with
    | nil => rfl
    | cons a as =>
      rw [rustChunks_eq_cons hn (by simp), List.flatten_cons]
      rw [ih ((a :: as).drop n) (by simp only [List.length_drop, List.length_cons] at hl ⊢; omega)]
      exact List.take_append_drop _ _

theorem length_mem_rustChunks (n : Nat) (hn : 0 < n) (l : List Nat)
    (c : List Nat) (hc : c ∈ rustChunks n l) : c.length ≤ n := by
  rw [rustChunks_eq_chunksSpec n hn] at hc
  unfold chunksSpec at hc
  obtain ⟨i, _, rfl⟩ := List.mem_map.mp hc
  simp [List.length_take]

theorem rustChunks_flatten_uniform (s : Nat) (hs : 0 < s) (L : List (List Nat))
    (huniform : ∀ x ∈ L, x.length = s) : rustChunks s L.flatten = L := by
  induction L with
  | nil => rfl
  | cons x xs ih =>
    have hx : x.length = s := huniform x (by simp)
    have hxne : (x ++ xs.flatten) ≠ [] := by
      intro h
      rw [List.append_eq_nil] at h
      have := h.1
      subst this
      simp at hx
      omega
    rw [List.flatten_cons, rustChunks_eq_cons hs hxne]
    rw [← hx, List.take_left, List.drop_left]
    rw [hx, ih (fun y hy => huniform y (by simp [hy]))]

/-! ### divCeil and shard-splitting lemmas -/

theorem le_divCeil_mul (a b : Nat) (hb : 0 < b) : a ≤ divCeil a b * b := by
  unfold divCeil
  have hdm := Nat.div_add_mod (a + b - 1) b
  have hmod : (a + b - 1) % b < b := Nat.mod_lt _ hb
  have h : a ≤ b * ((a + b - 1) / b) := by omega
  rw [Nat.mul_comm]
  exact h

theorem divCeil_le_of_le_mul {a b c : Nat} (hb : 0 < b) (h : a ≤ c * b) :
    divCeil a b ≤ c := by
  unfold divCeil
  have h1 : (b - 1 + b * c) / b = (b - 1) / b + c := Nat.add_mul_div_left _ _ hb
  have h2 : (b - 1) / b = 0 := Nat.div_eq_of_lt (by omega)
  have h3 : a + b - 1 ≤ b - 1 + b * c := by
    have : c * b = b * c := Nat.mul_comm c b
    omega
  calc (a + b - 1) / b ≤ (b - 1 + b * c) / b := Nat.div_le_div_right h3
    _ = c := by rw [h1, h2, Nat.zero_add]

theorem listResize_eq {l : List Nat} {n : Nat} (fill : Nat) (h : l.length ≤ n) :
    listResize l n fill = l ++ List.replicate (n - l.length) fill := by
  unfold listResize
  exact List.take_of_length_le (by simp; omega)

theorem listResize_length {l : List Nat} {n : Nat} (fill : Nat) (h : l.length ≤ n) :
    (listResize l n fill).length = n := by
  rw [listResize_eq fill h]
  simp
  omega

theorem length_rustChunks_le (s : Nat) (hs : 0 < s) (d : List Nat) (m : Nat)
    (hsm : d.length ≤ m * s) : (rustChunks s d).length ≤ m := by
  rw [length_rustChunks s hs]
  exact divCeil_le_of_le_mul hs hsm

theorem length_shards_from_data (d : List Nat) (m : Nat) (hm : 0 < m) :
    (shards_from_data d m).length = m := by
  unfold shards_from_data
  by_cases h0 : divCeil d.length m = 0
  · simp [h0]
  · have hs : 0 < divCeil d.length m := Nat.pos_of_ne_zero h0
    have hle : (rustChunks (divCeil d.length m) d).length ≤ m := by
      apply length_rustChunks_le _ hs
      have := le_divCeil_mul d.length m hm
      calc d.length ≤ divCeil d.length m * m := this
        _ = m * divCeil d.length m := Nat.mul_comm _ _
    simp [h0]
    omega

theorem length_mem_shards_from_data (d : List Nat) (m : Nat)
    (sh : List Nat) (hsh : sh ∈ shards_from_data d m) :
    sh.length = divCeil d.length m := by
  unfold shards_from_data at hsh
  by_cases h0 : divCeil d.length m = 0
  · rw [h0]
    simp [h0] at hsh
    rw [hsh.2]
    rfl
  · have hs : 0 < divCeil d.length m := Nat.pos_of_ne_zero h0
    simp only [h0, if_false] at hsh
    obtain ⟨c, hc, rfl⟩ := List.mem_map.mp hsh
    apply listResize_length
    rcases List.mem_append.mp hc with hc1 | hc2
    · exact length_mem_rustChunks _ hs _ _ hc1
    · rw [List.eq_of_mem_replicate hc2]
      simp

theorem bytes_lt_shards_from_data (d : List Nat) (m : Nat)
    (hd : ∀ b ∈ d, b < 256) :
    ∀ sh ∈ shards_from_data d m, ∀ b ∈ sh, b < 256 := by
  intro sh hsh b hb
  unfold shards_from_data at hsh
  by_cases h0 : divCeil d.length m = 0
  · simp [h0] at hsh
    rw [hsh.2] at hb
    simp at hb
  · have hs : 0 < divCeil d.length m := Nat.pos_of_ne_zero h0
    simp only [h0, if_false] at hsh
    obtain ⟨c, hc, rfl⟩ := List.mem_map.mp hsh
    unfold listResize at hb
    have hb2 := List.mem_of_mem_take hb
    rcases List.mem_append.mp hb2 with hb3 | hb4
    · have hcd : c ∈ rustChunks (divCeil d.length m) d := by
        rcases List.mem_append.mp hc with hc1 | hc2
        · exact hc1
        · rw [List.eq_of_mem_replicate hc2] at hb3
          simp at hb3
      apply hd
      rw [← rustChunks_flatten (divCeil d.length m) hs d]
      exact List.mem_flatten.mpr ⟨c, hcd, hb3⟩
    · rw [List.eq_of_mem_replicate hb4]
      omega

theorem flatten_replicate_replicate (k s : Nat) :
    (List.replicate k (List.replicate s (0 : Nat))).flatten = List.replicate (k * s) 0 := by
  induction k with
  | zero => simp
  | succ j ih =>
    rw [List.replicate_succ, List.flatten_cons, ih]
    rw [show (j + 1) * s = s + j * s by ring, List.replicate_add]

theorem flatten_resize_chunks (s : Nat) (hs : 0 < s) (d : List Nat) :
    ∃ z, ((rustChunks s d).map (fun c => listResize c s 0)).flatten =
      d ++ List.replicate z 0 := by
  suffices H : ∀ (len : Nat) (d : List Nat), d.length ≤ len →
      ∃ z, ((rustChunks s d).map (fun c => listResize c s 0)).flatten =
        d ++ List.replicate z 0 from H d.length d le_rfl
  intro len
  induction len with
  | zero =>
    intro d hd
    have : d = [] := List.length_eq_zero.mp (by omega)
    subst this
    exact ⟨0, rfl⟩
  | succ m ih =>
    intro d hd
    cases d with
    | nil => exact ⟨0, rfl⟩
    | cons a as =>
      rw [rustChunks_eq_cons hs (by simp), List.map_cons, List.flatten_cons]
      obtain ⟨z, hz⟩ := ih ((a :: as).drop s)
        (by simp only [List.length_drop, List.length_cons] at hd ⊢; omega)
      rw [hz]
      by_cases hls : (a :: as).length ≤ s
      · have htake : (a :: as).take s = a :: as := List.take_of_length_le hls
        have hdrop : (a :: as).drop s = [] := List.drop_eq_nil_of_le hls
        rw [htake, hdrop, listResize_eq 0 hls]
        refine ⟨(s - (a :: as).length) + z, ?_⟩
        rw [List.append_assoc, List.nil_append, ← List.replicate_add]
      · have htl : ((a :: as).take s).length = s := by
          rw [List.length_take]
          simp only [List.length_cons] at hls ⊢
          omega
        have hres : listResize ((a :: as).take s) s 0 = (a :: as).take s := by
          rw [listResize_eq 0 (le_of_eq htl), htl]
          simp
        rw [hres]
        refine ⟨z, ?_⟩
        rw [← List.append_assoc, List.take_append_drop]

theorem shards_from_data_eq_replicate (d : List Nat) (m : Nat)
    (h0 : divCeil d.length m = 0) :
    shards_from_data d m = List.replicate m [] := by
  unfold shards_from_data
  simp [h0]

theorem flatten_replicate_nil (m : Nat) :
    (List.replicate m ([] : List Nat)).flatten = [] := by
  induction m with
  | zero => rfl
  | succ k ih =>
    rw [List.replicate_succ, List.flatten_cons, List.nil_append]
    exact ih

theorem flatten_shards_from_data (d : List Nat) (m : Nat) (hm : 0 < m) :
    ∃ z, (shards_from_data d m).flatten = d ++ List.replicate z 0 := by
  by_cases h0 : divCeil d.length m = 0
  · refine ⟨0, ?_⟩
    have hd : d = [] := List.length_eq_zero.mp ((divCeil_eq_zero_iff hm).mp h0)
    rw [shards_from_data_eq_replicate d m h0, flatten_replicate_nil, hd]
    rfl
  · have hs : 0 < divCeil d.length m := Nat.pos_of_ne_zero h0
    unfold shards_from_data
    simp only [h0, if_false]
    obtain ⟨z, hz⟩ := flatten_resize_chunks (divCeil d.length m) hs d
    refine ⟨z + (m - (rustChunks (divCeil d.length m) d).length) * divCeil d.length m, ?_⟩
    rw [List.map_append, List.flatten_append, hz]
    have hrep : (List.replicate (m - (rustChunks (divCeil d.length m) d).length) []).map
        (fun c => listResize c (divCeil d.length m) 0) =
        List.replicate (m - (rustChunks (divCeil d.length m) d).length)
          (List.replicate (divCeil d.length m) 0) := by
      rw [List.map_replicate]
      congr 1
      unfold listResize
      simp
    rw [hrep, flatten_replicate_replicate, List.append_assoc, ← List.replicate_add]

theorem take_flatten_shards_from_data (d : List Nat) (m : Nat) (hm : 0 < m) :
    ((shards_from_data d m).flatten).take d.length = d := by
  obtain ⟨z, hz⟩ := flatten_shards_from_data d m hm
  rw [hz]
  exact List.take_left d _

/-! ### Serialization lemmas -/

theorem length_writeLE64 (n : Nat) : (writeLE64 n).length = 8 := rfl

theorem readLE64_writeLE64_append (n : Nat) (rest : List Nat)
    (h : n < 18446744073709551616) :
    readLE64 (writeLE64 n ++ rest) = n := by
  simp only [writeLE64, readLE64, List.cons_append, List.nil_append,
    List.getD_cons_zero, List.getD_cons_succ]
  omega

theorem foldl_append_eq (L : List (List Nat)) (init : List Nat) :
    L.foldl (fun acc sh => acc ++ sh) init = init ++ L.flatten := by
  induction L generalizing init with
  | nil => simp
  | cons x xs ih =>
    rw [List.foldl_cons, ih, List.flatten_cons, List.append_assoc]

theorem foldl_skip_none_eq (slots : List (Option (List Nat))) (init : List Nat) :
    slots.foldl (fun acc sl => match sl with | some s => acc ++ s | none => acc) init =
      init ++ (slots.filterMap id).flatten := by
  induction slots generalizing init with
  | nil => simp
  | cons sl sls ih =>
    cases sl with
    | none => rw [List.foldl_cons, ih]; rfl
    | some b =>
      rw [List.foldl_cons, ih]
      show (init ++ b) ++ (sls.filterMap id).flatten = init ++ (b :: sls.filterMap id).flatten
      rw [List.flatten_cons, List.append_assoc]

theorem getD_range_map {β : Type} (n : Nat) (f : Nat → β) (d : β) (i : Nat)
    (h : i < n) : ((List.range n).map f).getD i d = f i := by
  rw [List.getD_eq_getElem _ _ (by simp [h])]
  simp

theorem map_some_eq_range_map (l : List (List Nat)) :
    (List.range l.length).map (fun k => some (l.getD k [])) = l.map some := by
  apply List.ext_getElem
  · simp
  · intro i h1 h2
    simp only [List.getElem_map, List.getElem_range]
    rw [List.getD_eq_getElem _ _ (by simpa using h2)]

theorem take_mul_flatten (s : Nat) (L : List (List Nat))
    (huniform : ∀ x ∈ L, x.length = s) (m : Nat) :
    (L.flatten).take (m * s) = (L.take m).flatten := by
  induction L generalizing m with
  | nil => simp
  | cons x xs ih =>
    cases m with
    | zero => simp
    | succ j =>
      rw [List.flatten_cons, List.take_append_eq_append_take]
      have hx : x.length = s := huniform x (by simp)
      have h1 : x.take ((j + 1) * s) = x := by
        apply List.take_of_length_le
        rw [hx]
        calc s = 1 * s := (Nat.one_mul s).symm
          _ ≤ (j + 1) * s := Nat.mul_le_mul_right s (by omega)
      have h2 : (j + 1) * s - x.length = j * s := by
        rw [hx]
        have : (j + 1) * s = j * s + s := by ring
        omega
      rw [h1, h2, ih (fun y hy => huniform y (by simp [hy])) j]
      rw [List.take_succ_cons, List.flatten_cons]

theorem filterMap_id_map_some (l : List (List Nat)) :
    (l.map some).filterMap id = l := by
  induction l with
  | nil => rfl
  | cons x xs ih => simp [ih]

/-! ### fullShards lemmas -/

theorem length_mem_rsEncode (data : List (List Nat)) (p : List Nat)
    (hp : p ∈ rsEncode data) : p.length = (data.getD 0 []).length := by
  unfold rsEncode at hp
  obtain ⟨j, _, rfl⟩ := List.mem_map.mp hp
  simp

theorem length_rsEncode (data : List (List Nat)) :
    (rsEncode data).length = PARITY_SHARDS := by
  unfold rsEncode
  simp

theorem length_fullShards (P : List Nat) :
    (fullShards P).length = TOTAL_SHARDS := by
  unfold fullShards
  rw [List.length_append, length_shards_from_data P DATA_SHARDS (by decide),
    length_rsEncode]
  rfl

theorem getD_zero_length_shards (P : List Nat) :
    ((shards_from_data P DATA_SHARDS).getD 0 []).length = divCeil P.length DATA_SHARDS := by
  have hlen : (shards_from_data P DATA_SHARDS).length = DATA_SHARDS :=
    length_shards_from_data P DATA_SHARDS (by decide)
  have hpos : 0 < (shards_from_data P DATA_SHARDS).length := by rw [hlen]; decide
  rw [List.getD_eq_getElem _ _ hpos]
  exact length_mem_shards_from_data P DATA_SHARDS _ (List.getElem_mem hpos)

theorem length_mem_fullShards (P : List Nat) (sh : List Nat)
    (hsh : sh ∈ fullShards P) : sh.length = divCeil P.length DATA_SHARDS := by
  unfold fullShards at hsh
  rcases List.mem_append.mp hsh with h1 | h2
  · exact length_mem_shards_from_data P DATA_SHARDS sh h1
  · rw [length_mem_rsEncode _ _ h2]
    exact getD_zero_length_shards P

/-! ### Field and interpolation lemmas -/

theorem finv_eq_inv (x : F257) : finv x = x⁻¹ := by
  rcases eq_or_ne x 0 with h | h
  · subst h
    rw [finv, zero_pow (by norm_num), inv_zero]
  · have h256 : x ^ (257 - 1) = 1 := ZMod.pow_card_sub_one_eq_one h
    have hmul : finv x * x = 1 := by
      rw [finv, ← pow_succ]
      simpa using h256
    exact eq_inv_of_mul_eq_one_left hmul

theorem interpEval_eq_eval (s : Finset F257) (r : F257 → F257) (k : F257) :
    interpEval s r k = (Lagrange.interpolate s id r).eval k := by
  rw [Lagrange.interpolate_apply, Polynomial.eval_finset_sum]
  unfold interpEval
  apply Finset.sum_congr rfl
  intro x hx
  rw [Polynomial.eval_mul, Polynomial.eval_C]
  congr 1
  unfold Lagrange.basis
  rw [Polynomial.eval_prod]
  apply Finset.prod_congr rfl
  intro y hy
  rw [finv_eq_inv]
  simp [Lagrange.basisDivisor]

theorem interpEval_agree_poly (s : Finset F257) (r : F257 → F257)
    (g : Polynomial F257) (hdeg : g.degree < s.card)
    (hagree : ∀ x ∈ s, r x = g.eval x) (k : F257) :
    interpEval s r k = g.eval k := by
  rw [interpEval_eq_eval]
  have h1 : Lagrange.interpolate s id r = g := by
    symm
    apply Lagrange.eq_interpolate_of_eval_eq r (Set.injOn_id _) hdeg
    intro i hi
    exact (hagree i hi).symm
  rw [h1]

theorem natCast_F257_inj {a b : Nat} (ha : a < 257) (hb : b < 257)
    (h : (a : F257) = b) : a = b := by
  have h2 := congrArg ZMod.val h
  rwa [ZMod.val_cast_of_lt ha, ZMod.val_cast_of_lt hb] at h2

theorem card_image_natCast_of_lt (A : Finset Nat) (hA : ∀ a ∈ A, a < 257) :
    (A.image (Nat.cast : Nat → F257)).card = A.card := by
  rw [Finset.card_image_of_injOn]
  intro a ha b hb hab
  simp only [Finset.mem_coe] at ha hb
  exact natCast_F257_inj (hA a ha) (hA b hb) hab

theorem card_tenNodes : tenNodes.card = DATA_SHARDS := by
  unfold tenNodes
  rw [card_image_natCast_of_lt _ (fun a ha => by simp [DATA_SHARDS] at ha; omega)]
  simp

theorem mem_tenNodes (k : Nat) (hk : k < DATA_SHARDS) : ((k : Nat) : F257) ∈ tenNodes :=
  Finset.mem_image.mpr ⟨k, Finset.mem_range.mpr hk, rfl⟩

theorem DATA_SHARDS_eq : DATA_SHARDS = 10 := rfl

theorem PARITY_SHARDS_eq : PARITY_SHARDS = 4 := rfl

theorem TOTAL_SHARDS_eq : TOTAL_SHARDS = 14 := rfl

theorem getD_getD_lt (LL : List (List Nat))
    (h : ∀ sh ∈ LL, ∀ b ∈ sh, b < 256) (k t : Nat) :
    (LL.getD k []).getD t 0 < 256 := by
  rcases Nat.lt_or_ge k LL.length with hk | hk
  · have hsh : LL.getD k [] ∈ LL := by
      rw [List.getD_eq_getElem _ _ hk]
      exact List.getElem_mem hk
    rcases Nat.lt_or_ge t (LL.getD k []).length with ht | ht
    · have hb : (LL.getD k []).getD t 0 ∈ LL.getD k [] := by
        rw [List.getD_eq_getElem _ _ ht]
        exact List.getElem_mem ht
      exact h _ hsh _ hb
    · rw [List.getD_eq_default _ _ ht]
      omega
  · rw [List.getD_eq_default _ _ hk]
    simp

theorem byteAt_data_lt (P : List Nat) (hP : ∀ b ∈ P, b < 256) (k t : Nat) :
    byteAt (shards_from_data P DATA_SHARDS) k t < 256 :=
  getD_getD_lt _ (bytes_lt_shards_from_data P DATA_SHARDS hP) k t

theorem length_eraseSlots (shards : List (List Nat)) (A : Finset Nat) :
    (eraseSlots shards A).length = shards.length := by
  unfold eraseSlots
  simp

theorem getD_eraseSlots (shards : List (List Nat)) (A : Finset Nat) (k : Nat)
    (hk : k < shards.length) :
    (eraseSlots shards A).getD k none =
      if k ∈ A then none else some (shards.getD k []) := by
  unfold eraseSlots
  rw [getD_range_map _ _ _ _ hk]

theorem countP_isNone_eraseSlots_le (shards : List (List Nat)) (A : Finset Nat) :
    (eraseSlots shards A).countP (fun sl => sl.isNone) ≤ A.card := by
  unfold eraseSlots
  rw [List.countP_map]
  have hfun : ((fun sl => Option.isNone sl) ∘ fun k =>
      if k ∈ A then none else some (shards.getD k [])) =
      fun k => decide (k ∈ A) := by
    funext k
    by_cases h : k ∈ A <;> simp [h]
  rw [hfun, List.countP_eq_length_filter]
  have hnodup : ((List.range shards.length).filter (fun k => decide (k ∈ A))).Nodup :=
    (List.nodup_range _).filter _
  rw [← List.toFinset_card_of_nodup hnodup]
  apply Finset.card_le_card
  intro x hx
  rw [List.mem_toFinset, List.mem_filter] at hx
  simpa using hx.2

theorem filterMap_ite_none (l : List Nat) (A : Finset Nat) (g : Nat → List Nat) :
    l.filterMap (fun k => if k ∈ A then none else some (g k)) =
      (l.filter (fun k => decide (k ∉ A))).map g := by
  induction l with
  | nil => rfl
  | cons a as ih =>
    by_cases h : a ∈ A <;> simp [List.filterMap_cons, List.filter_cons, h, ih]

theorem present_filter_eraseSlots (shards : List (List Nat)) (A : Finset Nat) :
    (Finset.range (eraseSlots shards A).length).filter
      (fun i => ((eraseSlots shards A).getD i none).isSome) =
    Finset.range shards.length \ A := by
  rw [length_eraseSlots]
  ext i
  simp only [Finset.mem_filter, Finset.mem_range, Finset.mem_sdiff]
  constructor
  · rintro ⟨hi, hsome⟩
    refine ⟨hi, ?_⟩
    intro hiA
    rw [getD_eraseSlots _ _ _ hi, if_pos hiA] at hsome
    simp at hsome
  · rintro ⟨hi, hiA⟩
    refine ⟨hi, ?_⟩
    rw [getD_eraseSlots _ _ _ hi, if_neg hiA]
    rfl

theorem byteAt_fullShards_eval (P : List Nat) (hP : ∀ b ∈ P, b < 256)
    (t : Nat) (ht : t < divCeil P.length DATA_SHARDS)
    (k : Nat) (hk : k < TOTAL_SHARDS) :
    ((byteAt (fullShards P) k t : Nat) : F257) =
      (Lagrange.interpolate tenNodes id
        (colFun (shards_from_data P DATA_SHARDS) t)).eval ((k : Nat) : F257) ∧
    byteAt (fullShards P) k t < 257 := by
  have hdlen : (shards_from_data P DATA_SHARDS).length = DATA_SHARDS :=
    length_shards_from_data P DATA_SHARDS (by decide)
  rcases Nat.lt_or_ge k DATA_SHARDS with hk10 | hk10
  · have hbyte : byteAt (fullShards P) k t = byteAt (shards_from_data P DATA_SHARDS) k t := by
      unfold fullShards byteAt
      rw [List.getD_append _ _ _ _ (by rw [hdlen]; exact hk10)]
    have hnode := Lagrange.eval_interpolate_at_node
      (colFun (shards_from_data P DATA_SHARDS) t) (Set.injOn_id _) (mem_tenNodes k hk10)
    simp only [id_eq] at hnode
    constructor
    · rw [hbyte, hnode]
      unfold colFun byteAt
      rw [ZMod.val_cast_of_lt (by simp only [DATA_SHARDS] at hk10; omega)]
    · rw [hbyte]
      have := byteAt_data_lt P hP k t
      omega
  · have e1 : (fullShards P).getD k [] =
        (rsEncode (shards_from_data P DATA_SHARDS)).getD (k - DATA_SHARDS) [] := by
      unfold fullShards
      rw [List.getD_append_right _ _ _ _ (by rw [hdlen]; exact hk10), hdlen]
    have hkp : k - DATA_SHARDS < PARITY_SHARDS := by
      simp only [DATA_SHARDS, PARITY_SHARDS] at hk10 ⊢
      simp only [TOTAL_SHARDS, DATA_SHARDS, PARITY_SHARDS] at hk
      omega
    have e2 : (rsEncode (shards_from_data P DATA_SHARDS)).getD (k - DATA_SHARDS) [] =
        (List.range (divCeil P.length DATA_SHARDS)).map
          (fun t2 => (interpEval tenNodes (colFun (shards_from_data P DATA_SHARDS) t2)
            ((DATA_SHARDS + (k - DATA_SHARDS) : Nat) : F257)).val) := by
      unfold rsEncode
      rw [getD_range_map _ _ _ _ hkp, getD_zero_length_shards]
    have hnodek : ((DATA_SHARDS + (k - DATA_SHARDS) : Nat) : F257) = ((k : Nat) : F257) := by
      congr 1
      simp only [DATA_SHARDS] at hk10 ⊢
      omega
    have hbyte : byteAt (fullShards P) k t =
        (interpEval tenNodes (colFun (shards_from_data P DATA_SHARDS) t)
          ((k : Nat) : F257)).val := by
      unfold byteAt
      rw [e1, e2, getD_range_map _ _ _ _ ht, hnodek]
    constructor
    · rw [hbyte, interpEval_eq_eval]
      exact ZMod.natCast_zmod_val _
    · rw [hbyte]
      exact ZMod.val_lt _

theorem rsReconstruct_eraseSlots (P : List Nat) (hP : ∀ b ∈ P, b < 256)
    (A : Finset Nat) (hA : A ⊆ Finset.range TOTAL_SHARDS)
    (hcard : A.card ≤ PARITY_SHARDS) :
    rsReconstruct (eraseSlots (fullShards P) A) = .ok ((fullShards P).map some) := by
  have hfl : (fullShards P).length = TOTAL_SHARDS := length_fullShards P
  have hslen : (eraseSlots (fullShards P) A).length = TOTAL_SHARDS := by
    rw [length_eraseSlots, hfl]
  have hguard : ¬ (PARITY_SHARDS <
      (eraseSlots (fullShards P) A).countP (fun sl => sl.isNone)) :=
    Nat.not_lt.mpr (le_trans (countP_isNone_eraseSlots_le _ _) hcard)
  have hfm : (eraseSlots (fullShards P) A).filterMap id =
      ((List.range (fullShards P).length).filter (fun k => decide (k ∉ A))).map
        (fun k => (fullShards P).getD k []) := by
    unfold eraseSlots
    rw [List.filterMap_map, Function.id_comp]
    exact filterMap_ite_none _ _ _
  have hsd_card : (Finset.range TOTAL_SHARDS \ A).card = TOTAL_SHARDS - A.card :=
    Finset.card_sdiff hA
  have hne : ((List.range (fullShards P).length).filter
      (fun k => decide (k ∉ A))) ≠ [] := by
    intro hnil
    have hpos : 0 < (Finset.range TOTAL_SHARDS \ A).card := by
      rw [hsd_card]
      simp only [TOTAL_SHARDS, DATA_SHARDS, PARITY_SHARDS] at *
      omega
    obtain ⟨x, hx⟩ := Finset.card_pos.mp hpos
    rw [Finset.mem_sdiff, Finset.mem_range] at hx
    have hxl : x ∈ (List.range (fullShards P).length).filter
        (fun k => decide (k ∉ A)) := by
      rw [List.mem_filter, List.mem_range]
      exact ⟨by rw [hfl]; exact hx.1, by simpa using hx.2⟩
    rw [hnil] at hxl
    simp at hxl
  have hfirstlen : (((eraseSlots (fullShards P) A).filterMap id).getD 0 []).length
      = divCeil P.length DATA_SHARDS := by
    rw [hfm]
    obtain ⟨a, as, hcons⟩ := List.exists_cons_of_ne_nil hne
    rw [hcons, List.map_cons, List.getD_cons_zero]
    have ha : a < (fullShards P).length := by
      have hmem : a ∈ (List.range (fullShards P).length).filter
          (fun k => decide (k ∉ A)) := by
        rw [hcons]
        exact List.mem_cons_self a as
      have h2 := (List.mem_filter.mp hmem).1
      rwa [List.mem_range] at h2
    rw [List.getD_eq_getElem _ _ ha]
    exact length_mem_fullShards P _ (List.getElem_mem _)
  have hT : ((Finset.range TOTAL_SHARDS).filter
      (fun i => ((eraseSlots (fullShards P) A).getD i none).isSome)) =
      Finset.range TOTAL_SHARDS \ A := by
    have h0 := present_filter_eraseSlots (fullShards P) A
    rw [length_eraseSlots, hfl] at h0
    exact h0
  have hTcard : ((Finset.range TOTAL_SHARDS \ A).image
      (Nat.cast : Nat → F257)).card = TOTAL_SHARDS - A.card := by
    rw [card_image_natCast_of_lt _ (fun a ha => by
      have h2 := (Finset.mem_sdiff.mp ha).1
      rw [Finset.mem_range] at h2
      simp only [TOTAL_SHARDS, DATA_SHARDS, PARITY_SHARDS] at h2
      omega), hsd_card]
  simp only [rsReconstruct]
  rw [if_neg hguard]
  congr 1
  rw [hslen, ← map_some_eq_range_map (fullShards P), hfl]
  apply List.map_congr_left
  intro k hk
  rw [List.mem_range] at hk
  have hgd := getD_eraseSlots (fullShards P) A k (by rw [hfl]; exact hk)
  split
  next b hb =>
    rw [hb] at hgd
    by_cases hkA : k ∈ A
    · rw [if_pos hkA] at hgd
      exact absurd hgd (by simp)
    · rw [if_neg hkA] at hgd
      rw [Option.some.injEq] at hgd
      rw [hgd]
  next hb =>
    rw [hb] at hgd
    have hkA : k ∈ A := by
      by_contra hkA
      rw [if_neg hkA] at hgd
      exact absurd hgd.symm (by simp)
    congr 1
    have htlen : ((fullShards P).getD k []).length = divCeil P.length DATA_SHARDS := by
      rw [List.getD_eq_getElem _ _ (by rw [hfl]; exact hk)]
      exact length_mem_fullShards P _ (List.getElem_mem _)
    apply List.ext_getElem
    · rw [htlen, List.length_map, List.length_range, hfirstlen]
    · intro t h1 h2
      have ht : t < divCeil P.length DATA_SHARDS := by
        rw [htlen] at h2
        exact h2
      simp only [List.getElem_map, List.getElem_range]
      rw [hT]
      have hKk := byteAt_fullShards_eval P hP t ht k hk
      have hdeg : (Lagrange.interpolate tenNodes id
          (colFun (shards_from_data P DATA_SHARDS) t)).degree <
          (((Finset.range TOTAL_SHARDS \ A).image (Nat.cast : Nat → F257)).card
            : WithBot Nat) := by
        have hd1 := Lagrange.degree_interpolate_lt
          (colFun (shards_from_data P DATA_SHARDS) t) (Set.injOn_id (tenNodes : Set F257))
        rw [card_tenNodes] at hd1
        apply lt_of_lt_of_le hd1
        rw [Nat.cast_le, hTcard]
        simp only [TOTAL_SHARDS, DATA_SHARDS, PARITY_SHARDS] at *
        omega
      have hagree : ∀ x ∈ (Finset.range TOTAL_SHARDS \ A).image
          (Nat.cast : Nat → F257),
          slotCol (eraseSlots (fullShards P) A) t x =
            (Lagrange.interpolate tenNodes id
              (colFun (shards_from_data P DATA_SHARDS) t)).eval x := by
        intro x hx
        obtain ⟨i, hi, rfl⟩ := Finset.mem_image.mp hx
        rw [Finset.mem_sdiff, Finset.mem_range] at hi
        unfold slotCol
        have hval : ((i : Nat) : F257).val = i := ZMod.val_cast_of_lt (by
          simp only [TOTAL_SHARDS, DATA_SHARDS, PARITY_SHARDS] at hi
          omega)
        rw [hval]
        rw [getD_eraseSlots _ _ _ (by rw [hfl]; exact hi.1), if_neg hi.2]
        show ((byteAt (fullShards P) i t : Nat) : F257) = _
        exact (byteAt_fullShards_eval P hP t ht i hi.1).1
      rw [interpEval_agree_poly _ _ _ hdeg hagree]
      rw [← List.getD_eq_getElem _ 0 h2]
      show ((Lagrange.interpolate tenNodes id
        (colFun (shards_from_data P DATA_SHARDS) t)).eval ((k : Nat) : F257)).val
        = byteAt (fullShards P) k t
      rw [← hKk.1, ZMod.val_cast_of_lt hKk.2]

theorem assembleSlots_eq (slots : List (Option (List Nat))) (L : Nat) :
    assembleSlots slots L = (((slots.take DATA_SHARDS).filterMap id).flatten).take L := by
  unfold assembleSlots
  rw [foldl_skip_none_eq, List.nil_append]

theorem assembleSlots_map_some_fullShards (P : List Nat) :
    assembleSlots ((fullShards P).map some) P.length = P := by
  rw [assembleSlots_eq]
  have h1 : ((fullShards P).map some).take DATA_SHARDS =
      (shards_from_data P DATA_SHARDS).map some := by
    unfold fullShards
    rw [← List.map_take]
    congr 1
    have hdlen : (shards_from_data P DATA_SHARDS).length = DATA_SHARDS :=
      length_shards_from_data P DATA_SHARDS (by decide)
    exact List.take_left' hdlen
  rw [h1, filterMap_id_map_some]
  exact take_flatten_shards_from_data P DATA_SHARDS (by decide)

/-! ### Claim theorems -/

/-- C1: the spec's round-trip property claims that for every payload,
including the empty one, writing the container and reading it back with no
bytes lost recovers the payload with zero absent shards.  The code violates
this: for the empty payload, `protect` writes the 8-byte container
`00 × 8`, and the reading step of `recover` then computes `shard_len = 0`
and calls `chunks(0)`, which panics in Rust, instead of recovering the
empty payload.  This theorem evaluates the model at that failing input. -/
theorem roundtrip_empty_payload_panics :
    readContainer (protectContainer []) = .error .chunkPanic := rfl

/-- C2: for every payload (bytes) and every choice of at most
`PARITY_SHARDS` shard positions out of `TOTAL_SHARDS` marked absent (data
or parity), reconstruction fills every absent slot with exactly the
original shard bytes, and assembly with the stored original length
recovers the payload exactly. -/
theorem erasure_tolerance_recovers_payload (P : List Nat) (hP : ∀ b ∈ P, b < 256)
    (A : Finset Nat) (hA : A ⊆ Finset.range TOTAL_SHARDS)
    (hcard : A.card ≤ PARITY_SHARDS) :
    rsReconstruct (eraseSlots (fullShards P) A) = .ok ((fullShards P).map some) ∧
    assembleSlots ((fullShards P).map some) P.length = P :=
  ⟨rsReconstruct_eraseSlots P hP A hA hcard, assembleSlots_map_some_fullShards P⟩

/-- Witness for C2: payload `[1]` with data shard 0 and parity shard 11
erased is reconstructed and assembled back to `[1]`. -/
theorem erasure_tolerance_recovers_payload_witness :
    (∀ b ∈ [1], b < 256) ∧
    ({0, 11} : Finset Nat) ⊆ Finset.range TOTAL_SHARDS ∧
    ({0, 11} : Finset Nat).card ≤ PARITY_SHARDS ∧
    (rsReconstruct (eraseSlots (fullShards [1]) {0, 11}) =
        .ok ((fullShards [1]).map some) ∧
      assembleSlots ((fullShards [1]).map some) ([1] : List Nat).length = [1]) :=
  ⟨by decide, by decide, by decide,
    erasure_tolerance_recovers_payload [1] (by decide) {0, 11} (by decide) (by decide)⟩

/-- C3: any slot list of the `TOTAL_SHARDS` positions in which
`PARITY_SHARDS + 1` or more slots are absent makes the reconstruction step
fail with the reconstruction error; no data is returned. -/
theorem reconstruction_fails_beyond_parity (slots : List (Option (List Nat)))
    (_hlen : slots.length = TOTAL_SHARDS)
    (habs : PARITY_SHARDS + 1 ≤ slots.countP (fun sl => sl.isNone)) :
    rsReconstruct slots = .error .reconstructionError := by
  simp only [rsReconstruct]
  rw [if_pos (by omega)]

/-- Witness for C3: fourteen absent slots fail reconstruction. -/
theorem reconstruction_fails_beyond_parity_witness :
    (List.replicate 14 (none : Option (List Nat))).length = TOTAL_SHARDS ∧
    PARITY_SHARDS + 1 ≤
      (List.replicate 14 (none : Option (List Nat))).countP (fun sl => sl.isNone) ∧
    rsReconstruct (List.replicate 14 none) = .error .reconstructionError :=
  ⟨by decide, by decide, reconstruction_fails_beyond_parity _ (by decide) (by decide)⟩

/-- C5 counterexample: the claim says assembly fails with an
incomplete-reconstruction error whenever a data shard slot is absent.  The
assembly step of `recover` has no such failure: with data shard 0 absent it
silently skips the absent slot and still returns a payload. -/
theorem assemble_ignores_absent_data_shard :
    assembleSlots (none :: List.replicate 13 (some [0])) 5 = List.replicate 5 0 ∧
    ((none :: List.replicate 13 (some [0])).take DATA_SHARDS).countP
      (fun sl => sl.isNone) = 1 := by
  exact ⟨by decide, by decide⟩

/-- C5 amended: the assembly step concatenates the `Present` data-shard
slots (indices `0 .. DATA_SHARDS - 1`) in order, silently skipping any
absent slot, and truncates the result to the original length; it never
fails. -/
theorem assemble_concatenates_present_data_shards
    (slots : List (Option (List Nat))) (L : Nat) :
    assembleSlots slots L = (((slots.take DATA_SHARDS).filterMap id).flatten).take L :=
  assembleSlots_eq slots L

/-- C7: the container reader fails with the corrupt-container error exactly
when the byte count after the 8-byte header is zero while the stored
original length is positive. -/
theorem corrupt_error_iff (bytes : List Nat) :
    readContainer bytes = .error .corrupt ↔
      bytes.length = 8 ∧ 0 < readLE64 bytes := by
  simp only [readContainer]
  by_cases h8 : bytes.length < 8
  · rw [if_pos h8]
    constructor
    · intro h
      exact absurd h (by simp)
    · rintro ⟨h1, -⟩
      omega
  · rw [if_neg h8]
    by_cases hc : divCeil (bytes.drop 8).length TOTAL_SHARDS = 0 ∧ 0 < readLE64 bytes
    · rw [if_pos hc]
      constructor
      · intro _h
        refine ⟨?_, hc.2⟩
        have h0 := hc.1
        rw [divCeil_eq_zero_iff (by decide), List.length_drop] at h0
        omega
      · intro _h
        rfl
    · rw [if_neg hc]
      by_cases hc2 : divCeil (bytes.drop 8).length TOTAL_SHARDS = 0
      · rw [if_pos hc2]
        constructor
        · intro h
          exact absurd h (by simp)
        · rintro ⟨h1, h2⟩
          exact absurd ⟨hc2, h2⟩ hc
      · rw [if_neg hc2]
        constructor
        · intro h
          exact absurd h (by simp)
        · rintro ⟨h1, h2⟩
          have hd : (bytes.drop 8).length = 0 := by
            rw [List.length_drop]
            omega
          have h0 : divCeil (bytes.drop 8).length TOTAL_SHARDS = 0 := by
            rw [hd]
            exact (divCeil_eq_zero_iff (by decide)).mpr rfl
          exact absurd h0 hc2

/-- C8: after splitting and parity generation, every one of the
`TOTAL_SHARDS` shards has length `ceil(len(P) / DATA_SHARDS)`; in
particular an empty payload yields shard length 0 and `DATA_SHARDS` empty
data shards. -/
theorem uniform_shard_length (P : List Nat) :
    (∀ sh ∈ fullShards P, sh.length = divCeil P.length DATA_SHARDS) ∧
    (P.length = 0 → shards_from_data P DATA_SHARDS = List.replicate DATA_SHARDS []) := by
  constructor
  · exact fun sh hsh => length_mem_fullShards P sh hsh
  · intro h0
    apply shards_from_data_eq_replicate
    rw [h0]
    decide

/-- Witness for C8 at the empty payload. -/
theorem uniform_shard_length_witness :
    ((fullShards []).getD 0 []).length = divCeil ([] : List Nat).length DATA_SHARDS ∧
    shards_from_data [] DATA_SHARDS = List.replicate DATA_SHARDS [] :=
  ⟨(uniform_shard_length []).1 _ (by decide), (uniform_shard_length []).2 rfl⟩

/-- C10: a container consisting of exactly the 8-byte header with stored
length zero and no shard bytes drives the reading step of `recover` into
`chunks(0)`, the Rust panic (modelled as the distinguished `chunkPanic`
outcome, distinct from every error return and from any slot list). -/
theorem empty_container_chunk_panics (bytes : List Nat)
    (hlen : bytes.length = 8) (h0 : readLE64 bytes = 0) :
    readContainer bytes = .error .chunkPanic := by
  simp only [readContainer]
  have hd : (bytes.drop 8).length = 0 := by
    rw [List.length_drop]
    omega
  have hc : divCeil (bytes.drop 8).length TOTAL_SHARDS = 0 := by
    rw [hd]
    exact (divCeil_eq_zero_iff (by decide)).mpr rfl
  rw [if_neg (by omega),
    if_neg (by intro hcond; rw [h0] at hcond; exact absurd hcond.2 (lt_irrefl 0)),
    if_pos hc]

/-- Witness for C10: the all-zero 8-byte container panics the parse. -/
theorem empty_container_chunk_panics_witness :
    (List.replicate 8 0).length = 8 ∧ readLE64 (List.replicate 8 0) = 0 ∧
    readContainer (List.replicate 8 0) = .error .chunkPanic :=
  ⟨by decide, by decide, empty_container_chunk_panics _ (by decide) (by decide)⟩

/-- C6: whenever the byte count after the 8-byte header is nonzero, the
reader behaves exactly as the spec describes: it chunks the remaining
bytes with `shardLen = ceil(R / TOTAL_SHARDS)` into `Present` slots
(`readSlotsSpec`, written from the claim's words), appends `Absent` slots
up to `TOTAL_SHARDS` entries and truncates to `TOTAL_SHARDS`, so the slot
list always has exactly `TOTAL_SHARDS` entries. -/
theorem reader_parses_per_spec (bytes : List Nat) (h : 8 < bytes.length) :
    readContainer bytes = .ok (readLE64 bytes, readSlotsSpec (bytes.drop 8)) ∧
    (readSlotsSpec (bytes.drop 8)).length = TOTAL_SHARDS := by
  have hc : divCeil (bytes.drop 8).length TOTAL_SHARDS ≠ 0 := by
    intro h0
    rw [divCeil_eq_zero_iff (by decide), List.length_drop] at h0
    omega
  constructor
  · simp only [readContainer]
    rw [if_neg (by omega), if_neg (by intro hcond; exact hc hcond.1), if_neg hc]
    rw [rustChunks_eq_chunksSpec _ (Nat.pos_of_ne_zero hc)]
    rfl
  · unfold readSlotsSpec
    rw [List.length_take, List.length_append, List.length_replicate]
    omega

/-- Witness for C6: a 9-byte container (one shard byte after the header). -/
theorem reader_parses_per_spec_witness :
    8 < (List.replicate 9 0).length ∧
    (readContainer (List.replicate 9 0) =
        .ok (readLE64 (List.replicate 9 0), readSlotsSpec ((List.replicate 9 0).drop 8)) ∧
      (readSlotsSpec ((List.replicate 9 0).drop 8)).length = TOTAL_SHARDS) :=
  ⟨by decide, reader_parses_per_spec (List.replicate 9 0) (by decide)⟩

/-- C9: the container writer emits the original length as 8 little-endian
bytes followed by every shard's bytes in fixed index order (data shards,
then parity shards) with no separators; in particular, a 100-byte payload
yields shard length 10 and a container of exactly 8 + 140 = 148 bytes. -/
theorem container_layout (P : List Nat) :
    protectContainer P = writeLE64 P.length ++ (fullShards P).flatten ∧
    (protectContainer (List.replicate 100 65)).length = 148 := by
  constructor
  · unfold protectContainer
    exact foldl_append_eq _ _
  · have h1 : protectContainer (List.replicate 100 65) =
        writeLE64 (List.replicate 100 65).length ++
          (fullShards (List.replicate 100 65)).flatten := by
      unfold protectContainer
      exact foldl_append_eq _ _
    rw [h1, List.length_append, length_writeLE64]
    have hflat : ((fullShards (List.replicate 100 65)).flatten).length = 140 := by
      rw [List.length_flatten]
      have hmap : (fullShards (List.replicate 100 65)).map List.length =
          List.replicate 14 10 := by
        rw [List.eq_replicate_iff]
        constructor
        · rw [List.length_map, length_fullShards]
          rfl
        · intro b hb
          obtain ⟨sh, hsh, rfl⟩ := List.mem_map.mp hb
          rw [length_mem_fullShards _ _ hsh]
          decide
      rw [hmap]
      decide
    omega

/-- C4 counterexample: Scenario A's container (100 bytes of `0x41`)
truncated to the bytes of its first 9 shards (98 bytes) parses into 13
`Present` slots and 1 `Absent` slot — not the 9 `Present` / 5 `Absent` of
the claim — because the reader re-derives the shard length from the
truncated byte count: `ceil(90 / 14) = 7`, not the original 10. -/
theorem truncated_scenarioA_parses_13_present :
    readContainer ((protectContainer (List.replicate 100 65)).take 98) =
      .ok (100, List.replicate 12 (some (List.replicate 7 65)) ++
        [some (List.replicate 6 65), none]) ∧
    (List.replicate 12 (some (List.replicate 7 65)) ++
      [some (List.replicate 6 65), none]).countP
        (fun sl : Option (List Nat) => sl.isNone) = 1 :=
  ⟨by rfl, by decide⟩

/-- C4 amended: when the original shard length is at most 2 (payload of at
most 20 bytes), a container truncated to the bytes of its first 9 shards
(8 data + 1 parity) parses into 9 `Present` and 5 `Absent` slots and the
reconstruction step fails with the reconstruction error; for larger shard
lengths the re-derived shard length differs and the claimed parse does not
occur (see the counterexample). -/
theorem truncated_nine_shards_small_payload (P : List Nat)
    (h0 : 0 < P.length) (h20 : P.length ≤ 20) :
    readContainer ((protectContainer P).take (8 + 9 * divCeil P.length DATA_SHARDS)) =
      .ok (P.length, ((fullShards P).take 9).map some ++ List.replicate 5 none) ∧
    rsReconstruct (((fullShards P).take 9).map some ++ List.replicate 5 none) =
      .error .reconstructionError := by
  have hs12 : divCeil P.length DATA_SHARDS = 1 ∨ divCeil P.length DATA_SHARDS = 2 := by
    simp only [divCeil, DATA_SHARDS]
    omega
  have hspos : 0 < divCeil P.length DATA_SHARDS := by rcases hs12 with h | h <;> omega
  have huniform : ∀ sh ∈ fullShards P, sh.length = divCeil P.length DATA_SHARDS :=
    fun sh h => length_mem_fullShards P sh h
  have hfl : (fullShards P).length = TOTAL_SHARDS := length_fullShards P
  have hcont : protectContainer P = writeLE64 P.length ++ (fullShards P).flatten := by
    unfold protectContainer
    exact foldl_append_eq _ _
  have htake : (protectContainer P).take (8 + 9 * divCeil P.length DATA_SHARDS) =
      writeLE64 P.length ++ ((fullShards P).take 9).flatten := by
    rw [hcont, List.take_append_eq_append_take, length_writeLE64]
    congr 1
    · exact List.take_of_length_le (by rw [length_writeLE64]; omega)
    · have h9 : 8 + 9 * divCeil P.length DATA_SHARDS - 8 =
          9 * divCeil P.length DATA_SHARDS := by omega
      rw [h9]
      exact take_mul_flatten _ _ huniform 9
  rw [htake]
  have htail_len : (((fullShards P).take 9).flatten).length =
      9 * divCeil P.length DATA_SHARDS := by
    rw [List.length_flatten]
    have hmap : ((fullShards P).take 9).map List.length =
        List.replicate 9 (divCeil P.length DATA_SHARDS) := by
      rw [List.eq_replicate_iff]
      constructor
      · rw [List.length_map, List.length_take, hfl, TOTAL_SHARDS_eq]
        decide
      · intro b hb
        obtain ⟨sh, hsh, rfl⟩ := List.mem_map.mp hb
        exact huniform sh (List.mem_of_mem_take hsh)
    rw [hmap, List.sum_replicate, smul_eq_mul]
  have hmlen : (((fullShards P).take 9).map some).length = 9 := by
    rw [List.length_map, List.length_take, hfl, TOTAL_SHARDS_eq]
    decide
  have hcount : (((fullShards P).take 9).map some ++
      List.replicate 5 (none : Option (List Nat))).countP (fun sl => sl.isNone) = 5 := by
    rw [List.countP_append, List.countP_map]
    have h1 : List.countP ((fun sl => Option.isNone sl) ∘ some) ((fullShards P).take 9) = 0 :=
      List.countP_eq_zero.mpr (fun a _ => by simp)
    rw [h1]
    decide
  constructor
  · simp only [readContainer]
    have hle : readLE64 (writeLE64 P.length ++ ((fullShards P).take 9).flatten) = P.length :=
      readLE64_writeLE64_append _ _ (by omega)
    have hdrop : (writeLE64 P.length ++ ((fullShards P).take 9).flatten).drop 8 =
        ((fullShards P).take 9).flatten := by
      have h8 : (8 : Nat) = (writeLE64 P.length).length := (length_writeLE64 _).symm
      rw [h8, List.drop_left]
    have hlen_all : (writeLE64 P.length ++ ((fullShards P).take 9).flatten).length =
        8 + 9 * divCeil P.length DATA_SHARDS := by
      rw [List.length_append, length_writeLE64, htail_len]
    rw [if_neg (by rw [hlen_all]; omega), hle, hdrop, htail_len]
    have hcs : divCeil (9 * divCeil P.length DATA_SHARDS) TOTAL_SHARDS =
        divCeil P.length DATA_SHARDS := by
      rcases hs12 with h | h <;> rw [h] <;> decide
    rw [hcs]
    rw [if_neg (by intro hcond; omega), if_neg (by omega)]
    have hchunks : rustChunks (divCeil P.length DATA_SHARDS)
        (((fullShards P).take 9).flatten) = (fullShards P).take 9 :=
      rustChunks_flatten_uniform _ hspos _
        (fun x hx => huniform x (List.mem_of_mem_take hx))
    rw [hchunks, hmlen, TOTAL_SHARDS_eq]
    have hfinal : (((fullShards P).take 9).map some ++
        List.replicate (14 - 9) (none : Option (List Nat))).take 14 =
        ((fullShards P).take 9).map some ++ List.replicate 5 none := by
      have h59 : (14 : Nat) - 9 = 5 := rfl
      rw [h59]
      exact List.take_of_length_le (by
        rw [List.length_append, List.length_replicate, hmlen])
    rw [hfinal]
  · simp only [rsReconstruct]
    rw [if_pos (by rw [hcount]; decide)]

/-- Witness for the amended C4 at the one-byte payload `[1]`. -/
theorem truncated_nine_shards_small_payload_witness :
    0 < ([1] : List Nat).length ∧ ([1] : List Nat).length ≤ 20 ∧
    (readContainer ((protectContainer [1]).take
        (8 + 9 * divCeil ([1] : List Nat).length DATA_SHARDS)) =
      .ok (([1] : List Nat).length,
        ((fullShards [1]).take 9).map some ++ List.replicate 5 none) ∧
    rsReconstruct (((fullShards [1]).take 9).map some ++ List.replicate 5 none) =
      .error .reconstructionError) :=
  ⟨by decide, by decide, truncated_nine_shards_small_payload [1] (by decide) (by decide)⟩
